import Mathlib

/-!
Verification of the go-make build engine: a shallow embedding of the
dependency resolver (`pkg/builder/builder.go`) and the variable expansion
subsystem of `pkg/types` together with theorems about the behaviour
asserted in the specification.

Conventions of the embedding:
* Go maps become functions into `Option`.
* The filesystem is a pure snapshot `String → Option Nat` (the `Nat` is the
  modification time; `none` means no entry, mirroring `os.Stat` failure).
* Process execution is a pure oracle `String → Option String` (`none` means
  exit status 0, `some msg` is the error text of a failed `cmd.Run()`).
* Go's unbounded recursion is rendered with a fuel parameter; running out of
  fuel yields the artificial `BuildErr.outOfFuel`, which no Go path produces.
-/

namespace GoMake

/-- A Makefile rule: target, prerequisites and commands, mirroring
`types.Rule` of the source. -/
structure Rule where
  target : String
  dependencies : List String
  commands : List String
deriving DecidableEq, Repr

/-- Context for the four automatic variable tokens, mirroring
`types.AutomaticVariables`. -/
structure AutomaticVariables where
  target : String
  firstPrereq : String
  allPrereqs : List String
  newerPrereqs : List String
deriving DecidableEq, Repr

/-- `strings.Join(l, " ")` as used by `AllPrereqsString`/`NewerPrereqsString`. -/
def joinSpace (l : List String) : String :=
  String.intercalate " " l

/-- Three-tier lookup of `getVariableValue`: the Makefile variable map first,
then the process environment (`os.Getenv`, which returns `""` for unset
names). -/
def getVariableValue (vars : String → Option String)
    (osEnv : String → String) (name : String) : String :=
  match vars name with
  | some v => v
  | none => osEnv name

/-- State of the left-to-right scanner that mirrors one
`ReplaceAllStringFunc` pass of a pattern `\$\(([^)]+)\)` (or the `\x7b`/`\x7d`
variant): either in plain text, just after a `$`, or inside an open reference
with the characters seen so far. -/
inductive ScanSt where
  | plain : ScanSt
  | dollar : ScanSt
  | inRef (buf : List Char) : ScanSt
deriving DecidableEq, Repr

/-- One `ReplaceAllStringFunc` pass for references `$` `oc` NAME `cc` where
NAME is a nonempty run of characters other than `cc`.  Matches Go regexp
semantics: leftmost match, the name extends to the first closing character,
replacements are inserted verbatim and never rescanned by the same pass,
and unmatched openers are left untouched. -/
def scanRefs (oc cc : Char) (f : String → String) :
    List Char → ScanSt → List Char
  | [], .plain => []
  | [], .dollar => ['$']
  | [], .inRef buf => '$' :: oc :: buf
  | c :: rest, .plain =>
    if c = '$' then scanRefs oc cc f rest .dollar
    else c :: scanRefs oc cc f rest .plain
  | c :: rest, .dollar =>
    if c = oc then scanRefs oc cc f rest (.inRef [])
    else if c = '$' then '$' :: scanRefs oc cc f rest .dollar
    else '$' :: c :: scanRefs oc cc f rest .plain
  | c :: rest, .inRef buf =>
    if c = cc then
      if buf.isEmpty then '$' :: oc :: cc :: scanRefs oc cc f rest .plain
      else (f (String.mk buf)).data ++ scanRefs oc cc f rest .plain
    else scanRefs oc cc f rest (.inRef (buf ++ [c]))

/-- The automatic-variable pass (`autoVarPattern.ReplaceAllStringFunc`): the
two-character tokens made of `$` followed by one of `@ < ^ ?`.  The `Bool`
records a pending `$`. -/
def scanAuto (av : AutomaticVariables) : List Char → Bool → List Char
  | [], false => []
  | [], true => ['$']
  | c :: rest, false =>
    if c = '$' then scanAuto av rest true else c :: scanAuto av rest false
  | c :: rest, true =>
    if c = '@' then av.target.data ++ scanAuto av rest false
    else if c = '<' then av.firstPrereq.data ++ scanAuto av rest false
    else if c = '^' then (joinSpace av.allPrereqs).data ++ scanAuto av rest false
    else if c = '?' then (joinSpace av.newerPrereqs).data ++ scanAuto av rest false
    else if c = '$' then '$' :: scanAuto av rest true
    else '$' :: c :: scanAuto av rest false

/-- The `$(NAME)` pass (`varPattern1.ReplaceAllStringFunc`). -/
def expandParen (vars : String → Option String)
    (osEnv : String → String) (s : String) : String :=
  String.mk (scanRefs '(' ')' (getVariableValue vars osEnv) s.data .plain)

/-- The `$\x7bNAME\x7d` pass (`varPattern2.ReplaceAllStringFunc`). -/
def expandBrace (vars : String → Option String)
    (osEnv : String → String) (s : String) : String :=
  String.mk (scanRefs '{' '}' (getVariableValue vars osEnv) s.data .plain)

/-- `expandVariablesWithContext`: automatic-variable pass (skipped when the
context is absent), then the `$(NAME)` pass, then the brace pass. -/
def expandVariablesWithContext (vars : String → Option String)
    (osEnv : String → String) (autoVars : Option AutomaticVariables)
    (text : String) : String :=
  let t1 := match autoVars with
    | some av => String.mk (scanAuto av text.data false)
    | none => text
  expandBrace vars osEnv (expandParen vars osEnv t1)

/-- `expandVariables`: the context-free entry point (nil automatic
variable context). -/
def expandVariables (vars : String → Option String)
    (osEnv : String → String) (text : String) : String :=
  expandVariablesWithContext vars osEnv none text

/-- The environment a `Builder` runs against: the parsed Makefile (rule map
and variable map), the process environment, a filesystem snapshot
(`os.Stat`: entry name to modification time), and the process-execution
oracle (`cmd.Run()` on the expanded command: `none` is success, `some msg`
the execution error text). -/
structure BuildEnv where
  rules : String → Option Rule
  vars : String → Option String
  osEnv : String → String
  fs : String → Option Nat
  exec : String → Option String

/-- The mutable state of a `Builder`: the `built` and `building` maps, plus
a log of the (expanded) commands handed to the execution collaborator, in
order. -/
structure BState where
  built : String → Bool
  building : String → Bool
  log : List String

/-- The state of a freshly constructed `Builder` (`NewBuilder` / `Reset`):
both maps empty. -/
def initState : BState :=
  { built := fun _ => false, building := fun _ => false, log := [] }

/-- `b.building[target] = v`. -/
def setBuilding (st : BState) (target : String) (v : Bool) : BState :=
  { st with building := fun t => if t = target then v else st.building t }

/-- `b.built[target] = v`. -/
def setBuilt (st : BState) (target : String) (v : Bool) : BState :=
  { st with built := fun t => if t = target then v else st.built t }

/-- `IsBuilt` of the source: queries the `built` map only. -/
def IsBuilt (st : BState) (target : String) : Bool :=
  st.built target

/-- The errors `Build` can return, as structured values; `outOfFuel` is the
embedding artifact for exhausted fuel and corresponds to no Go code path. -/
inductive BuildErr where
  | outOfFuel : BuildErr
  | cycle (target : String) : BuildErr
  | noRule (target : String) : BuildErr
  | cmdFailed (msg : String) : BuildErr
deriving DecidableEq, Repr

/-- The `fmt.Errorf` message texts the source attaches to each error. -/
def errorMessage : BuildErr → String
  | .outOfFuel => ""
  | .cycle t => "circular dependency detected involving target '" ++ t ++ "'"
  | .noRule t => "no rule to make target '" ++ t ++ "'"
  | .cmdFailed m => "command failed: " ++ m

/-- `fileExists`: `os.Stat` succeeds. -/
def fileExists (fs : String → Option Nat) (filename : String) : Bool :=
  (fs filename).isSome

/-- `needsRebuild`: the target is missing, or some prerequisite exists on
disk with a strictly later modification time (`ModTime().After`). -/
def needsRebuild (fs : String → Option Nat) (target : String)
    (dependencies : List String) : Bool :=
  match fs target with
  | none => true
  | some tt =>
    dependencies.any fun dep =>
      match fs dep with
      | none => false
      | some dt => decide (tt < dt)

/-- `getNewerPrerequisites`: all prerequisites when the target is missing,
otherwise those that exist on disk strictly newer than the target, collected
by appending in list order as the Go loop does. -/
def getNewerPrerequisites (fs : String → Option Nat) (target : String)
    (dependencies : List String) : List String :=
  match fs target with
  | none => dependencies
  | some tt =>
    dependencies.foldl
      (fun acc dep =>
        match fs dep with
        | none => acc
        | some dt => if tt < dt then acc ++ [dep] else acc)
      []

/-- `createAutomaticVariables`: target, first prerequisite (empty when
there is none), full prerequisite list, and the newer subset. -/
def createAutomaticVariables (fs : String → Option Nat) (target : String)
    (dependencies : List String) : AutomaticVariables :=
  { target := target
    firstPrereq := match dependencies with | [] => "" | d :: _ => d
    allPrereqs := dependencies
    newerPrereqs := getNewerPrerequisites fs target dependencies }

/-- `executeCommandWithContext`'s expansion step: the command is expanded
through `ExpandVariablesWithContext` with the rule's automatic-variable
context. -/
def expandCmd (env : BuildEnv) (av : AutomaticVariables) (c : String) : String :=
  expandVariablesWithContext env.vars env.osEnv (some av) c

/-- The command loop of `Build`: expand, hand the command to the executor
(logging it), and on the first failure return the `command failed: %s` error
without running the rest. -/
def runCommands (env : BuildEnv) (av : AutomaticVariables) :
    BState → List String → BState × Option BuildErr
  | st, [] => (st, none)
  | st, c :: rest =>
    let ec := expandCmd env av c
    let st1 := { st with log := st.log ++ [ec] }
    match env.exec ec with
    | some m => (st1, some (.cmdFailed m))
    | none => runCommands env av st1 rest

/-- The resolution loop: `bruns env fuel st l` runs `Build` on each target
of `l` in order against state `st`, propagating the first error, exactly as
the prerequisite loop of the Go `Build` does.  One unit of fuel is consumed
per resolved list entry, so any fuel above the total number of resolution
steps is enough; fuel exhaustion yields the artificial `outOfFuel` error.
The body of the cons case is a faithful transcription of `Build`:
memoization check, cycle check, rule lookup with the file-exists fallback,
marking in-progress, prerequisite recursion, staleness check, command
execution, and the success-exit bookkeeping. -/
def bruns (env : BuildEnv) : Nat → BState → List String → BState × Option BuildErr
  | _, st, [] => (st, none)
  | 0, st, _ :: _ => (st, some .outOfFuel)
  | Nat.succ fuel, st, target :: rest =>
    if st.built target then bruns env fuel st rest
    else if st.building target then (st, some (.cycle target))
    else
      match env.rules target with
      | none =>
        if fileExists env.fs target then bruns env fuel st rest
        else (st, some (.noRule target))
      | some rule =>
        let st1 := setBuilding st target true
        match bruns env fuel st1 rule.dependencies with
        | (st2, some e) => (st2, some e)
        | (st2, none) =>
          match (if needsRebuild env.fs target rule.dependencies then
                   runCommands env
                     (createAutomaticVariables env.fs target rule.dependencies)
                     st2 rule.commands
                 else (st2, none)) with
          | (st3, some e) => (st3, some e)
          | (st3, none) =>
            bruns env fuel (setBuilt (setBuilding st3 target false) target true) rest

/-- `Build(target)` of the source, with fuel. -/
def build (env : BuildEnv) (fuel : Nat) (st : BState) (target : String) :
    BState × Option BuildErr :=
  bruns env fuel st [target]

/-- The staleness-guarded command step between the prerequisite loop and the
success exit of `Build` (a named abbreviation of the corresponding slice of
`bruns`, used to split proofs). -/
def cmdStep (env : BuildEnv) (target : String) (rule : Rule) (st : BState) :
    BState × Option BuildErr :=
  if needsRebuild env.fs target rule.dependencies then
    runCommands env (createAutomaticVariables env.fs target rule.dependencies)
      st rule.commands
  else (st, none)

/-- Concrete environment exercising command-failure propagation: `top`
depends on `mid` then `sib`; `mid`'s only command `badc` fails with `boom`;
`sib` and `top` have commands of their own that must never run. -/
def chainEnv : BuildEnv :=
  { rules := fun t =>
      if t = "top" then some ⟨"top", ["mid", "sib"], ["topcmd"]⟩
      else if t = "mid" then some ⟨"mid", [], ["badc"]⟩
      else if t = "sib" then some ⟨"sib", [], ["sibcmd"]⟩
      else none
    vars := fun _ => none
    osEnv := fun _ => ""
    fs := fun _ => none
    exec := fun c => if c = "badc" then some "boom" else none }

/-- `needle` matches at the head of `hay`. -/
def headMatches : List Char → List Char → Bool
  | [], _ => true
  | _ :: _, [] => false
  | a :: as, b :: bs => a = b && headMatches as bs

/-- `needle` occurs contiguously somewhere inside `hay` (substring test,
used to ask whether an error message contains a command's text). -/
def occursIn (needle : List Char) : List Char → Bool
  | [] => headMatches needle []
  | c :: t => headMatches needle (c :: t) || occursIn needle t

/-- One prerequisite edge followed by a (possibly empty) chain: `Reach rules
a b` says target `b` is reachable from target `a` through at least one edge
of the induced dependency graph (an edge goes from a ruled target to each
entry of its dependency list). -/
inductive Reach (rules : String → Option Rule) : String → String → Prop where
  | step (a : String) (r : Rule) (b : String) (ha : rules a = some r)
      (hb : b ∈ r.dependencies) : Reach rules a b
  | trans {a b c : String} (hab : Reach rules a b) (hbc : Reach rules b c) :
      Reach rules a c

/-- No prerequisite cycle is reachable from `X` (counting `X` itself). -/
def NoCyc (rules : String → Option Rule) (X : String) : Prop :=
  ∀ c, (c = X ∨ Reach rules X c) → ¬ Reach rules c c

/-- Some target on a prerequisite cycle is reachable from `T` (or is `T`). -/
def CycleReachableFrom (rules : String → Option Rule) (T : String) : Prop :=
  ∃ c, (c = T ∨ Reach rules T c) ∧ Reach rules c c

/-- Invariant tying the `built` set to the graph: every target marked built
has no reachable cycle. -/
def BuiltAcyclic (env : BuildEnv) (st : BState) : Prop :=
  ∀ X, st.built X = true → NoCyc env.rules X

/-! ## Lemmas about the expansion scanner -/

theorem scanRefs_inRef_extend (oc cc : Char) (f : String → String) :
    ∀ (l r buf : List Char), cc ∉ l →
      scanRefs oc cc f (l ++ r) (.inRef buf) =
        scanRefs oc cc f r (.inRef (buf ++ l)) := by
  intro l
  induction l with
  | nil => intro r buf _; simp
  | cons c t ih =>
    intro r buf hn
    have hc : c ≠ cc := fun h => hn (h ▸ List.mem_cons_self c t)
    have ht : cc ∉ t := fun h => hn (List.mem_cons_of_mem c h)
    simp only [List.cons_append, scanRefs, if_neg hc, List.append_eq]
    rw [ih r (buf ++ [c]) ht, List.append_assoc, List.singleton_append]

theorem scanRefs_no_dollar (oc cc : Char) (f : String → String) :
    ∀ l : List Char, '$' ∉ l → scanRefs oc cc f l .plain = l := by
  intro l
  induction l with
  | nil => simp [scanRefs]
  | cons c t ih =>
    intro hn
    have hc : c ≠ '$' := fun h => hn (h ▸ List.mem_cons_self c t)
    have ht : '$' ∉ t := fun h => hn (List.mem_cons_of_mem c h)
    simp [scanRefs, if_neg hc, ih ht]

theorem string_mk_data (s : String) : String.mk s.data = s :=
  String.ext rfl

theorem data_ne_nil_of_ne_empty {s : String} (h : s ≠ "") : s.data ≠ [] :=
  fun hd => h (String.ext (by simpa using hd))

/-- Expanding a lone `$(N)` reference replaces it by the three-tier lookup of
`N` and then runs only the brace pass over the substituted value: the paren
pass never rescans its own replacement. -/
theorem expand_single_ref (vars : String → Option String)
    (osEnv : String → String) (N : String) (h1 : ')' ∉ N.data) (h2 : N ≠ "") :
    expandVariables vars osEnv ("$(" ++ N ++ ")") =
      expandBrace vars osEnv (getVariableValue vars osEnv N) := by
  have hdata : ("$(" ++ N ++ ")").data = '$' :: '(' :: (N.data ++ [')']) := by
    simp [String.data_append]
  have hne : (N.data).isEmpty = false := by
    simpa [List.isEmpty_iff] using data_ne_nil_of_ne_empty h2
  have hparen : expandParen vars osEnv ("$(" ++ N ++ ")") =
      getVariableValue vars osEnv N := by
    unfold expandParen
    rw [hdata]
    simp [scanRefs, scanRefs_inRef_extend '(' ')' _ N.data [')'] [] h1, hne,
      string_mk_data]
  unfold expandVariables expandVariablesWithContext
  simpa using congrArg (expandBrace vars osEnv) hparen

/-- A value without `$` passes through the brace pass unchanged. -/
theorem expandBrace_no_dollar (vars : String → Option String)
    (osEnv : String → String) (s : String) (h : '$' ∉ s.data) :
    expandBrace vars osEnv s = s := by
  unfold expandBrace
  rw [scanRefs_no_dollar '{' '}' _ s.data h, string_mk_data]

/-- Expanding a lone `$\x7bN\x7d` reference (for a name free of `$`)
replaces it by the three-tier lookup value, inserted verbatim: nothing
re-processes a brace-pass replacement. -/
theorem expand_single_brace_ref (vars : String → Option String)
    (osEnv : String → String) (N : String) (h1 : '}' ∉ N.data)
    (h2 : N ≠ "") (h3 : '$' ∉ N.data) :
    expandVariables vars osEnv ("$\x7b" ++ N ++ "\x7d") =
      getVariableValue vars osEnv N := by
  have hdata : ("$\x7b" ++ N ++ "\x7d").data = '$' :: '{' :: (N.data ++ ['}']) := by
    simp [String.data_append]
  have hne : (N.data).isEmpty = false := by
    simpa [List.isEmpty_iff] using data_ne_nil_of_ne_empty h2
  have hnd : '$' ∉ N.data ++ ['}'] := by
    intro hmem
    rcases List.mem_append.mp hmem with hmem | hmem
    · exact h3 hmem
    · simp at hmem
  have hparen : expandParen vars osEnv ("$\x7b" ++ N ++ "\x7d") = "$\x7b" ++ N ++ "\x7d" := by
    unfold expandParen
    rw [hdata]
    simp [scanRefs, scanRefs_no_dollar '(' ')' _ (N.data ++ ['}']) hnd]
    exact String.ext (by simp [hdata])
  unfold expandVariables expandVariablesWithContext
  simp only [hparen]
  unfold expandBrace
  rw [hdata]
  simp [scanRefs, scanRefs_inRef_extend '{' '}' _ N.data ['}'] [] h1, hne,
    string_mk_data]

/-! ## Theorems about `needsRebuild` and `getNewerPrerequisites` -/

theorem foldl_newer (fs : String → Option Nat) (tt : Nat) :
    ∀ (l acc : List String),
      l.foldl
        (fun acc dep => match fs dep with
          | none => acc
          | some dt => if tt < dt then acc ++ [dep] else acc) acc
      = acc ++ l.filter fun dep =>
          match fs dep with
          | none => false
          | some dt => decide (tt < dt) := by
  intro l
  induction l with
  | nil => intro acc; simp
  | cons dep t ih =>
    intro acc
    cases h : fs dep with
    | none => simp [List.foldl_cons, h, ih, List.filter_cons]
    | some dt =>
      by_cases hlt : tt < dt
      · simp [List.foldl_cons, h, hlt, ih, List.filter_cons]
      · simp [List.foldl_cons, h, hlt, ih, List.filter_cons]

/-! ## Claim theorems: expansion -/

/-- C3 (counterexample): with `A = "$\x7bB\x7d"` and `B = "bomb"`, expanding
`"$(A)"` yields `"bomb"`, not the verbatim value `"$\x7bB\x7d"`: the value
substituted by the `$(...)` pass IS re-expanded by the later brace pass,
contradicting the claim that a substituted value containing a reference in
either syntax is never re-expanded. -/
theorem claim_c3_counterexample :
    expandVariables
        (fun n => if n = "A" then some "${B}"
          else if n = "B" then some "bomb" else none)
        (fun _ => "") "$(A)" = "bomb" ∧
      ("bomb" : String) ≠ "${B}" := by
  decide

/-- C3 (amended): each `$(NAME)` or `$\x7bNAME\x7d` occurrence is replaced by
the looked-up value; a value substituted for a brace reference is inserted
verbatim and never re-expanded, while a value substituted for a paren
reference is not rescanned by the paren pass but does undergo the subsequent
brace pass (so a `$\x7b...\x7d` reference inside it is expanded once more). -/
theorem claim_c3_amended (vars : String → Option String)
    (osEnv : String → String) (N : String) (h1 : ')' ∉ N.data)
    (h1' : '}' ∉ N.data) (h2 : N ≠ "") (h3 : '$' ∉ N.data) :
    expandVariables vars osEnv ("$(" ++ N ++ ")") =
        expandBrace vars osEnv (getVariableValue vars osEnv N) ∧
      expandVariables vars osEnv ("$\x7b" ++ N ++ "\x7d") =
        getVariableValue vars osEnv N :=
  ⟨expand_single_ref vars osEnv N h1 h2,
   expand_single_brace_ref vars osEnv N h1' h2 h3⟩

/-- C3 amended, witnessed at `N = "V"` bound locally to `"val"`. -/
theorem claim_c3_amended_witness :
    expandVariables (fun n => if n = "V" then some "val" else none)
        (fun _ => "") "$(V)" =
      expandBrace (fun n => if n = "V" then some "val" else none)
        (fun _ => "")
        (getVariableValue (fun n => if n = "V" then some "val" else none)
          (fun _ => "") "V") ∧
    expandVariables (fun n => if n = "V" then some "val" else none)
        (fun _ => "") "${V}" =
      getVariableValue (fun n => if n = "V" then some "val" else none)
        (fun _ => "") "V" :=
  claim_c3_amended (fun n => if n = "V" then some "val" else none)
    (fun _ => "") "V" (by decide) (by decide) (by decide) (by decide)

/-- C9: expanding the single reference `$(X)` yields the local binding when
present (even when it is the empty string), regardless of the environment;
otherwise the process-environment value (which is `""` for unset names, as
`os.Getenv` returns).  The hypotheses keep the name well formed and the
resulting value free of further references. -/
theorem claim_c9 (vars : String → Option String) (osEnv : String → String)
    (X : String) (h1 : ')' ∉ X.data) (h2 : X ≠ "") :
    (∀ v, vars X = some v → '$' ∉ v.data →
        expandVariables vars osEnv ("$(" ++ X ++ ")") = v) ∧
      (vars X = none → '$' ∉ (osEnv X).data →
        expandVariables vars osEnv ("$(" ++ X ++ ")") = osEnv X) := by
  constructor
  · intro v hv hd
    rw [expand_single_ref vars osEnv X h1 h2]
    have : getVariableValue vars osEnv X = v := by simp [getVariableValue, hv]
    rw [this, expandBrace_no_dollar vars osEnv v hd]
  · intro hv hd
    rw [expand_single_ref vars osEnv X h1 h2]
    have : getVariableValue vars osEnv X = osEnv X := by
      simp [getVariableValue, hv]
    rw [this, expandBrace_no_dollar vars osEnv (osEnv X) hd]

/-- C9 witnessed: precedence with `X` bound to `""` locally while the
environment binds it to `"ZZZ"` (the local empty string wins), and fallback
to the environment when the local store has no binding. -/
theorem claim_c9_witness :
    expandVariables (fun n => if n = "X" then some "" else none)
        (fun _ => "ZZZ") "$(X)" = "" ∧
      expandVariables (fun _ => none) (fun _ => "ZZZ") "$(X)" = "ZZZ" :=
  ⟨(claim_c9 (fun n => if n = "X" then some "" else none) (fun _ => "ZZZ")
      "X" (by decide) (by decide)).1 "" (by decide) (by decide),
   (claim_c9 (fun _ => none) (fun _ => "ZZZ")
      "X" (by decide) (by decide)).2 (by decide) (by decide)⟩

/-! ## Claim theorems: staleness -/

/-- C6: `needsRebuild` holds exactly when the target has no filesystem entry
or some prerequisite has an entry with strictly later modification time;
prerequisites without entries are skipped and never make the target stale. -/
theorem claim_c6 (fs : String → Option Nat) (target : String)
    (deps : List String) :
    needsRebuild fs target deps = true ↔
      fs target = none ∨
        ∃ dep ∈ deps, ∃ tt dt,
          fs target = some tt ∧ fs dep = some dt ∧ tt < dt := by
  unfold needsRebuild
  cases h : fs target with
  | none => simp [h]
  | some tt =>
    simp only [List.any_eq_true]
    constructor
    · rintro ⟨dep, hdep, hm⟩
      cases hd : fs dep with
      | none => rw [hd] at hm; simp at hm
      | some dt =>
        rw [hd] at hm
        exact Or.inr ⟨dep, hdep, tt, dt, rfl, hd, by simpa using hm⟩
    · rintro (hnone | ⟨dep, hdep, tt', dt, htt, hdt, hlt⟩)
      · cases hnone
      · have htteq : tt' = tt := (Option.some_inj.mp htt).symm
        refine ⟨dep, hdep, ?_⟩
        rw [hdt]
        simp only [decide_eq_true_eq]
        omega

/-- C8: the newer-prerequisites list equals the full prerequisite list when
the target has no filesystem entry, and otherwise the in-order subsequence
of prerequisites whose entries are strictly newer than the target (a
`filter`). -/
theorem claim_c8 (fs : String → Option Nat) (target : String)
    (deps : List String) :
    getNewerPrerequisites fs target deps =
      match fs target with
      | none => deps
      | some tt =>
        deps.filter fun dep =>
          match fs dep with
          | none => false
          | some dt => decide (tt < dt) := by
  cases h : fs target with
  | none => simp [getNewerPrerequisites, h]
  | some tt => simp [getNewerPrerequisites, h, foldl_newer]

/-! ## Lemmas about the builder state -/

@[simp] theorem setBuilding_built (st : BState) (t : String) (v : Bool) :
    (setBuilding st t v).built = st.built := rfl

@[simp] theorem setBuilding_log (st : BState) (t : String) (v : Bool) :
    (setBuilding st t v).log = st.log := rfl

@[simp] theorem setBuilt_building (st : BState) (t : String) (v : Bool) :
    (setBuilt st t v).building = st.building := rfl

@[simp] theorem setBuilt_log (st : BState) (t : String) (v : Bool) :
    (setBuilt st t v).log = st.log := rfl

theorem setBuilding_building (st : BState) (t : String) (v : Bool) (Y : String) :
    (setBuilding st t v).building Y = if Y = t then v else st.building Y := rfl

theorem setBuilt_built (st : BState) (t : String) (v : Bool) (Y : String) :
    (setBuilt st t v).built Y = if Y = t then v else st.built Y := rfl

/-- The command loop touches only the log: the `built` and `building` maps
come out unchanged. -/
theorem runCommands_flags (env : BuildEnv) (av : AutomaticVariables) :
    ∀ (cmds : List String) (st st' : BState) (r : Option BuildErr),
      runCommands env av st cmds = (st', r) →
      st'.built = st.built ∧ st'.building = st.building := by
  intro cmds
  induction cmds with
  | nil =>
    intro st st' r h
    simp only [runCommands] at h
    cases h
    exact ⟨rfl, rfl⟩
  | cons c rest ih =>
    intro st st' r h
    simp only [runCommands] at h
    cases hx : env.exec (expandCmd env av c) with
    | some m =>
      rw [hx] at h
      cases h
      exact ⟨rfl, rfl⟩
    | none =>
      rw [hx] at h
      simp only [] at h
      exact ih { st with log := st.log ++ [expandCmd env av c] } st' r h

theorem cmdStep_flags (env : BuildEnv) (target : String) (rule : Rule)
    (st st' : BState) (r : Option BuildErr) (h : cmdStep env target rule st = (st', r)) :
    st'.built = st.built ∧ st'.building = st.building := by
  unfold cmdStep at h
  by_cases hnr : needsRebuild env.fs target rule.dependencies
  · rw [if_pos hnr] at h
    exact runCommands_flags env _ rule.commands st st' r h
  · rw [if_neg hnr] at h
    cases h
    exact ⟨rfl, rfl⟩

/-- Core invariant of the resolver: resolving any work list never clears a
`built` mark, and for a target already on the stack (`building`) it neither
clears the stack mark nor changes its `built` flag. -/
theorem bruns_flags (env : BuildEnv) :
    ∀ (fuel : Nat) (l : List String) (st st' : BState) (r : Option BuildErr),
      bruns env fuel st l = (st', r) → ∀ Y,
        (st.built Y = true → st'.built Y = true) ∧
        (st.building Y = true →
          st'.building Y = true ∧ st'.built Y = st.built Y) := by
  intro fuel
  induction fuel with
  | zero =>
    intro l st st' r h Y
    cases l with
    | nil => rw [bruns] at h; cases h; exact ⟨id, fun hb => ⟨hb, rfl⟩⟩
    | cons a t => rw [bruns] at h; cases h; exact ⟨id, fun hb => ⟨hb, rfl⟩⟩
  | succ fuel ih =>
    intro l st st' r h Y
    cases l with
    | nil => rw [bruns] at h; cases h; exact ⟨id, fun hb => ⟨hb, rfl⟩⟩
    | cons target rest =>
      rw [bruns] at h
      by_cases hb : st.built target
      · rw [if_pos hb] at h
        exact ih rest st st' r h Y
      · rw [if_neg hb] at h
        by_cases hbg : st.building target
        · rw [if_pos hbg] at h
          cases h
          exact ⟨id, fun hb' => ⟨hb', rfl⟩⟩
        · rw [if_neg hbg] at h
          cases hrule : env.rules target with
          | none =>
            rw [hrule] at h
            by_cases hfe : fileExists env.fs target
            · rw [if_pos hfe] at h
              exact ih rest st st' r h Y
            · rw [if_neg hfe] at h
              cases h
              exact ⟨id, fun hb' => ⟨hb', rfl⟩⟩
          | some rule =>
            rw [hrule] at h
            simp only [] at h
            rcases hdeps : bruns env fuel (setBuilding st target true)
              rule.dependencies with ⟨st2, r2⟩
            rw [hdeps] at h
            have step1 := ih rule.dependencies (setBuilding st target true)
              st2 r2 hdeps Y
            have hbgY : st.building Y = true → Y ≠ target := by
              intro hY hEq
              rw [hEq] at hY
              exact hbg hY
            have hst1bg : st.building Y = true →
                (setBuilding st target true).building Y = true := by
              intro hY
              rw [setBuilding_building]
              by_cases hYt : Y = target <;> simp [hYt, hY]
            cases r2 with
            | some e =>
              simp only [] at h
              cases h
              refine ⟨fun hY => step1.1 hY, fun hY => ?_⟩
              have := step1.2 (hst1bg hY)
              exact ⟨this.1, this.2⟩
            | none =>
              simp only [] at h
              rcases hcmd : cmdStep env target rule st2 with ⟨st3, r3⟩
              rw [show (if needsRebuild env.fs target rule.dependencies then
                    runCommands env
                      (createAutomaticVariables env.fs target rule.dependencies)
                      st2 rule.commands
                  else (st2, none)) = cmdStep env target rule st2 from rfl,
                hcmd] at h
              have step2 := cmdStep_flags env target rule st2 st3 r3 hcmd
              cases r3 with
              | some e =>
                simp only [] at h
                cases h
                refine ⟨fun hY => ?_, fun hY => ?_⟩
                · rw [step2.1]
                  exact step1.1 hY
                · have h1 := step1.2 (hst1bg hY)
                  rw [step2.1, step2.2]
                  exact ⟨h1.1, h1.2⟩
              | none =>
                simp only [] at h
                have step3 := ih rest
                  (setBuilt (setBuilding st3 target false) target true) st' r h Y
                refine ⟨fun hY => ?_, fun hY => ?_⟩
                · refine step3.1 ?_
                  rw [setBuilt_built]
                  by_cases hYt : Y = target
                  · simp [hYt]
                  · simp only [if_neg hYt, setBuilding_built]
                    rw [step2.1]
                    exact step1.1 hY
                · have hYt := hbgY hY
                  have h1 := step1.2 (hst1bg hY)
                  have h4bg : (setBuilt (setBuilding st3 target false) target
                      true).building Y = true := by
                    rw [setBuilt_building, setBuilding_building, if_neg hYt,
                      step2.2]
                    exact h1.1
                  have h4bt : (setBuilt (setBuilding st3 target false) target
                      true).built Y = st.built Y := by
                    rw [setBuilt_built, if_neg hYt, setBuilding_built, step2.1]
                    exact h1.2
                  have := step3.2 h4bg
                  exact ⟨this.1, by rw [this.2, h4bt]⟩

/-- Re-entry is always caught: a work list containing a target that is on
the stack (`building`) but not yet built can never resolve successfully. -/
theorem bruns_mem_building (env : BuildEnv) :
    ∀ (fuel : Nat) (l : List String) (st st' : BState) (r : Option BuildErr)
      (X : String), st.building X = true → st.built X = false → X ∈ l →
      bruns env fuel st l = (st', r) → r ≠ none := by
  intro fuel
  induction fuel with
  | zero =>
    intro l st st' r X _ _ hmem h
    cases l with
    | nil => cases hmem
    | cons a t =>
      rw [bruns] at h
      cases h
      simp
  | succ fuel ih =>
    intro l st st' r X hbgX hbX hmem h
    cases l with
    | nil => cases hmem
    | cons target rest =>
      rw [bruns] at h
      by_cases hb : st.built target
      · rw [if_pos hb] at h
        have hXt : X ≠ target := by
          intro hEq
          rw [hEq, hb] at hbX
          cases hbX
        have hmem' : X ∈ rest := by
          cases hmem with
          | head => exact absurd rfl hXt
          | tail _ hm => exact hm
        exact ih rest st st' r X hbgX hbX hmem' h
      · rw [if_neg hb] at h
        by_cases hbg : st.building target
        · rw [if_pos hbg] at h
          cases h
          simp
        · rw [if_neg hbg] at h
          have hXt : X ≠ target := by
            intro hEq
            rw [hEq] at hbgX
            exact hbg hbgX
          have hmem' : X ∈ rest := by
            cases hmem with
            | head => exact absurd rfl hXt
            | tail _ hm => exact hm
          cases hrule : env.rules target with
          | none =>
            rw [hrule] at h
            by_cases hfe : fileExists env.fs target
            · rw [if_pos hfe] at h
              exact ih rest st st' r X hbgX hbX hmem' h
            · rw [if_neg hfe] at h
              cases h
              simp
          | some rule =>
            rw [hrule] at h
            simp only [] at h
            rcases hdeps : bruns env fuel (setBuilding st target true)
              rule.dependencies with ⟨st2, r2⟩
            rw [hdeps] at h
            have hst1 : (setBuilding st target true).building X = true := by
              rw [setBuilding_building, if_neg hXt]
              exact hbgX
            have step1 := bruns_flags env fuel rule.dependencies
              (setBuilding st target true) st2 r2 hdeps X
            cases r2 with
            | some e =>
              simp only [] at h
              cases h
              simp
            | none =>
              simp only [] at h
              rcases hcmd : cmdStep env target rule st2 with ⟨st3, r3⟩
              rw [show (if needsRebuild env.fs target rule.dependencies then
                    runCommands env
                      (createAutomaticVariables env.fs target rule.dependencies)
                      st2 rule.commands
                  else (st2, none)) = cmdStep env target rule st2 from rfl,
                hcmd] at h
              have step2 := cmdStep_flags env target rule st2 st3 r3 hcmd
              cases r3 with
              | some e =>
                simp only [] at h
                cases h
                simp
              | none =>
                simp only [] at h
                have hbg2 := (step1.2 hst1).1
                have hbt2 : st2.built X = false := by
                  rw [(step1.2 hst1).2, setBuilding_built]
                  exact hbX
                have h4bg : (setBuilt (setBuilding st3 target false) target
                    true).building X = true := by
                  rw [setBuilt_building, setBuilding_building, if_neg hXt,
                    step2.2]
                  exact hbg2
                have h4bt : (setBuilt (setBuilding st3 target false) target
                    true).built X = false := by
                  rw [setBuilt_built, if_neg hXt, setBuilding_built, step2.1]
                  exact hbt2
                exact ih rest _ st' r X h4bg h4bt hmem' h

/-- Case analysis of a successful single-target resolution: afterwards the
target is marked built, unless it had no rule but a filesystem entry (then
the state is completely unchanged and the target was neither built nor on
the stack). -/
theorem build_success_cases (env : BuildEnv) (fuel : Nat) (st st' : BState)
    (T : String) (h : bruns env fuel st [T] = (st', none)) :
    st'.built T = true ∨
      (st' = st ∧ st.building T = false ∧ env.rules T = none ∧
        fileExists env.fs T = true) := by
  cases fuel with
  | zero =>
    rw [bruns] at h
    cases h
  | succ fuel =>
    rw [bruns] at h
    by_cases hb : st.built T
    · rw [if_pos hb] at h
      rw [bruns] at h
      cases h
      exact Or.inl hb
    · rw [if_neg hb] at h
      by_cases hbg : st.building T
      · rw [if_pos hbg] at h
        cases h
      · rw [if_neg hbg] at h
        cases hrule : env.rules T with
        | none =>
          rw [hrule] at h
          by_cases hfe : fileExists env.fs T
          · rw [if_pos hfe] at h
            rw [bruns] at h
            cases h
            exact Or.inr ⟨rfl, by simpa using hbg, rfl, hfe⟩
          · rw [if_neg hfe] at h
            cases h
        | some rule =>
          rw [hrule] at h
          simp only [] at h
          rcases hdeps : bruns env fuel (setBuilding st T true)
            rule.dependencies with ⟨st2, r2⟩
          rw [hdeps] at h
          cases r2 with
          | some e => simp only [] at h; cases h
          | none =>
            simp only [] at h
            rcases hcmd : cmdStep env T rule st2 with ⟨st3, r3⟩
            rw [show (if needsRebuild env.fs T rule.dependencies then
                  runCommands env
                    (createAutomaticVariables env.fs T rule.dependencies)
                    st2 rule.commands
                else (st2, none)) = cmdStep env T rule st2 from rfl,
              hcmd] at h
            cases r3 with
            | some e => simp only [] at h; cases h
            | none =>
              simp only [] at h
              rw [bruns] at h
              cases h
              refine Or.inl ?_
              rw [setBuilt_built, if_pos rfl]

/-! ## Claim theorems: builder -/

/-- C7: after a successful `Build(T)`, a second `Build(T)` in the same
session is a no-op: it returns success with the state (including the log of
executed commands) completely unchanged, for any positive fuel. -/
theorem claim_c7 (env : BuildEnv) (fuel fuel' : Nat) (st st' : BState)
    (T : String) (h : build env fuel st T = (st', none)) :
    build env (fuel' + 1) st' T = (st', none) := by
  rcases build_success_cases env fuel st st' T h with hbuilt | ⟨rfl, hbg, hrule, hfe⟩
  · unfold build
    rw [bruns, if_pos hbuilt, bruns]
  · by_cases hbuilt : st'.built T
    · unfold build
      rw [bruns, if_pos hbuilt, bruns]
    · unfold build
      rw [bruns, if_neg hbuilt, if_neg (by simp [hbg]), hrule, if_pos hfe,
        bruns]

/-- C7 witnessed on a one-rule Makefile: the first `Build` runs the single
command, the second returns at once with the same state. -/
theorem claim_c7_witness :
    build
      { rules := fun t => if t = "t7" then some ⟨"t7", [], ["c7"]⟩ else none
        vars := fun _ => none, osEnv := fun _ => "", fs := fun _ => none
        exec := fun _ => none } 1
      (build
        { rules := fun t => if t = "t7" then some ⟨"t7", [], ["c7"]⟩ else none
          vars := fun _ => none, osEnv := fun _ => "", fs := fun _ => none
          exec := fun _ => none } 3 initState "t7").1 "t7" =
    ((build
        { rules := fun t => if t = "t7" then some ⟨"t7", [], ["c7"]⟩ else none
          vars := fun _ => none, osEnv := fun _ => "", fs := fun _ => none
          exec := fun _ => none } 3 initState "t7").1, none) :=
  claim_c7 _ 3 0 initState _ "t7" rfl

/-- C10: when `Build(T)` returns an error, `T` is not marked built
afterwards (`IsBuilt` is false), while every target that was already marked
built before the call stays marked built.  (`outOfFuel` is excluded: it is
the fuel artifact of the embedding, not a Go behaviour.) -/
theorem claim_c10 (env : BuildEnv) (fuel : Nat) (st st' : BState)
    (T : String) (e : BuildErr) (h : build env fuel st T = (st', some e))
    (hne : e ≠ .outOfFuel) :
    IsBuilt st' T = false ∧ ∀ Y, IsBuilt st Y = true → IsBuilt st' Y = true := by
  have hmono : ∀ Y, st.built Y = true → st'.built Y = true := by
    intro Y
    exact (bruns_flags env fuel [T] st st' (some e) h Y).1
  refine ⟨?_, hmono⟩
  unfold build at h
  cases fuel with
  | zero =>
    rw [bruns] at h
    cases h
    exact absurd rfl hne
  | succ fuel =>
    rw [bruns] at h
    by_cases hb : st.built T
    · rw [if_pos hb, bruns] at h
      cases h
    · rw [if_neg hb] at h
      by_cases hbg : st.building T
      · rw [if_pos hbg] at h
        cases h
        simpa [IsBuilt] using hb
      · rw [if_neg hbg] at h
        cases hrule : env.rules T with
        | none =>
          rw [hrule] at h
          by_cases hfe : fileExists env.fs T
          · rw [if_pos hfe, bruns] at h
            cases h
          · rw [if_neg hfe] at h
            cases h
            simpa [IsBuilt] using hb
        | some rule =>
          rw [hrule] at h
          simp only [] at h
          rcases hdeps : bruns env fuel (setBuilding st T true)
            rule.dependencies with ⟨st2, r2⟩
          rw [hdeps] at h
          have hst1 : (setBuilding st T true).building T = true := by
            rw [setBuilding_building, if_pos rfl]
          have step1 := bruns_flags env fuel rule.dependencies
            (setBuilding st T true) st2 r2 hdeps T
          have hbt2 : st2.built T = false := by
            rw [(step1.2 hst1).2, setBuilding_built]
            simpa using hb
          cases r2 with
          | some e' =>
            simp only [] at h
            cases h
            simpa [IsBuilt] using hbt2
          | none =>
            simp only [] at h
            rcases hcmd : cmdStep env T rule st2 with ⟨st3, r3⟩
            rw [show (if needsRebuild env.fs T rule.dependencies then
                  runCommands env
                    (createAutomaticVariables env.fs T rule.dependencies)
                    st2 rule.commands
                else (st2, none)) = cmdStep env T rule st2 from rfl,
              hcmd] at h
            have step2 := cmdStep_flags env T rule st2 st3 r3 hcmd
            cases r3 with
            | some e' =>
              simp only [] at h
              cases h
              rw [IsBuilt, step2.1]
              exact hbt2
            | none =>
              simp only [] at h
              rw [bruns] at h
              cases h

/-- C10 witnessed: a failing build (missing rule for a prerequisite) leaves
the requested target unmarked while a previously built target stays
marked. -/
theorem claim_c10_witness :
    IsBuilt
        (build
          { rules := fun t => if t = "app" then some ⟨"app", ["ghost"], []⟩
              else none
            vars := fun _ => none, osEnv := fun _ => "", fs := fun _ => none
            exec := fun _ => none } 10
          (setBuilt initState "done" true) "app").1 "app" = false ∧
      ∀ Y, IsBuilt (setBuilt initState "done" true) Y = true →
        IsBuilt
          (build
            { rules := fun t => if t = "app" then some ⟨"app", ["ghost"], []⟩
                else none
              vars := fun _ => none, osEnv := fun _ => "", fs := fun _ => none
              exec := fun _ => none } 10
            (setBuilt initState "done" true) "app").1 Y = true :=
  claim_c10
    { rules := fun t => if t = "app" then some ⟨"app", ["ghost"], []⟩
        else none
      vars := fun _ => none, osEnv := fun _ => "", fs := fun _ => none
      exec := fun _ => none } 10 (setBuilt initState "done" true) _ "app"
    (.noRule "ghost")
    (congrArg
      (fun o =>
        ((build
          { rules := fun t => if t = "app" then some ⟨"app", ["ghost"], []⟩
              else none
            vars := fun _ => none, osEnv := fun _ => "", fs := fun _ => none
            exec := fun _ => none } 10
          (setBuilt initState "done" true) "app").1, o))
      (by decide :
        (build
          { rules := fun t => if t = "app" then some ⟨"app", ["ghost"], []⟩
              else none
            vars := fun _ => none, osEnv := fun _ => "", fs := fun _ => none
            exec := fun _ => none } 10
          (setBuilt initState "done" true) "app").2 =
          some (BuildErr.noRule "ghost")))
    (by decide)

/-- C5: for a target with no rule, `Build` succeeds with the state untouched
(no commands executed) when a filesystem entry of that exact name exists,
and fails with the `no rule to make target` error when it does not. -/
theorem claim_c5 (env : BuildEnv) (fuel : Nat) (st : BState) (T : String)
    (hrule : env.rules T = none) (hbg : st.building T = false) :
    (fileExists env.fs T = true → build env (fuel + 1) st T = (st, none)) ∧
      (env.fs T = none → st.built T = false →
        build env (fuel + 1) st T = (st, some (.noRule T))) := by
  constructor
  · intro hfe
    by_cases hb : st.built T
    · unfold build
      rw [bruns, if_pos hb, bruns]
    · unfold build
      rw [bruns, if_neg hb, if_neg (by simp [hbg]), hrule, if_pos hfe, bruns]
  · intro hfs hb
    unfold build
    rw [bruns, if_neg (by simp [hb]), if_neg (by simp [hbg]), hrule,
      if_neg (by simp [fileExists, hfs])]

/-- C5 witnessed: `leaf.c` exists with no rule (silent success, nothing
logged), `ghost` has neither rule nor file (`NoRuleForTarget`). -/
theorem claim_c5_witness :
    build
        { rules := fun _ => none, vars := fun _ => none, osEnv := fun _ => ""
          fs := fun t => if t = "leaf.c" then some 3 else none
          exec := fun _ => none } 1 initState "leaf.c" = (initState, none) ∧
      build
        { rules := fun _ => none, vars := fun _ => none, osEnv := fun _ => ""
          fs := fun t => if t = "leaf.c" then some 3 else none
          exec := fun _ => none } 1 initState "ghost" =
        (initState, some (.noRule "ghost")) :=
  ⟨(claim_c5 _ 0 initState "leaf.c" rfl rfl).1 (by decide),
   (claim_c5 _ 0 initState "ghost" rfl rfl).2 (by decide) rfl⟩

/-- C1: evaluation at the failing input.  `app` depends on the missing
`ghost`; the first `Build("app")` fails with `NoRuleForTarget`, yet leaves
`app` in the in-progress (`building`) set, and a second `Build("app")` on
the same builder then reports a spurious circular dependency.  This
contradicts the claim (and the specification's requirement) that the
in-progress set is cleared on every exit: the source only clears it on the
success path. -/
theorem claim_c1_bug :
    (build
        { rules := fun t => if t = "app" then some ⟨"app", ["ghost"], []⟩
            else none
          vars := fun _ => none, osEnv := fun _ => "", fs := fun _ => none
          exec := fun _ => none } 10 initState "app").2 =
      some (.noRule "ghost") ∧
    (build
        { rules := fun t => if t = "app" then some ⟨"app", ["ghost"], []⟩
            else none
          vars := fun _ => none, osEnv := fun _ => "", fs := fun _ => none
          exec := fun _ => none } 10 initState "app").1.building "app" = true ∧
    (build
        { rules := fun t => if t = "app" then some ⟨"app", ["ghost"], []⟩
            else none
          vars := fun _ => none, osEnv := fun _ => "", fs := fun _ => none
          exec := fun _ => none } 10
        (build
          { rules := fun t => if t = "app" then some ⟨"app", ["ghost"], []⟩
              else none
            vars := fun _ => none, osEnv := fun _ => "", fs := fun _ => none
            exec := fun _ => none } 10 initState "app").1 "app").2 =
      some (.cycle "app") := by
  decide

/-- C2 (counterexample): a rule whose only command `boom_cmd` fails with
the execution error `exit status 1` makes `Build` return the error whose
message is `command failed: exit status 1`: the underlying execution error
is preserved, but the literal command text does not occur anywhere in the
error, contradicting the claim that the error wraps both. -/
theorem claim_c2_counterexample :
    (build
        { rules := fun t => if t = "app" then some ⟨"app", [], ["boom_cmd"]⟩
            else none
          vars := fun _ => none, osEnv := fun _ => "", fs := fun _ => none
          exec := fun c => if c = "boom_cmd" then some "exit status 1"
            else none } 5 initState "app").2 =
      some (.cmdFailed "exit status 1") ∧
    occursIn "boom_cmd".data
        (errorMessage (BuildErr.cmdFailed "exit status 1")).data = false := by
  decide

/-- C2 (amended): when a command's execution fails (exit non-zero or launch
failure, both reported by the oracle), the resulting `command failed` error
wraps exactly the underlying execution error — the command text is printed
but not part of the error — and nothing further runs.  Four parts: (1) the
command loop stops at the first failing command, logging nothing after it
and wrapping the execution error; (2) `Build` of the target whose rule
contains the failing command returns exactly that `CommandFailed` error and
the failure state; (3) a failed entry of a prerequisite list aborts the
remaining entries, the result pair passing through unchanged; (4) an
ancestor whose prerequisite resolution fails returns the very same state
and error, so none of the ancestor's own commands is executed. -/
theorem claim_c2_amended (env : BuildEnv) :
    (∀ (av : AutomaticVariables) (st : BState) (pre : List String)
        (c : String) (post : List String) (m : String),
        (∀ x ∈ pre, env.exec (expandCmd env av x) = none) →
        env.exec (expandCmd env av c) = some m →
        runCommands env av st (pre ++ c :: post) =
          ({ st with log := st.log ++ pre.map (expandCmd env av) ++
              [expandCmd env av c] }, some (.cmdFailed m))) ∧
    (∀ (fuel : Nat) (st st2 stF : BState) (T : String) (rule : Rule)
        (m : String), env.rules T = some rule → st.built T = false →
        st.building T = false →
        bruns env fuel (setBuilding st T true) rule.dependencies =
          (st2, none) →
        needsRebuild env.fs T rule.dependencies = true →
        runCommands env (createAutomaticVariables env.fs T rule.dependencies)
          st2 rule.commands = (stF, some (.cmdFailed m)) →
        build env (fuel + 1) st T = (stF, some (.cmdFailed m))) ∧
    (∀ (fuel : Nat) (st stF : BState) (X : String) (rest : List String)
        (e : BuildErr), bruns env fuel st [X] = (stF, some e) →
        bruns env fuel st (X :: rest) = (stF, some e)) ∧
    (∀ (fuel : Nat) (st stF : BState) (T : String) (rule : Rule)
        (e : BuildErr), env.rules T = some rule → st.built T = false →
        st.building T = false →
        bruns env fuel (setBuilding st T true) rule.dependencies =
          (stF, some e) →
        build env (fuel + 1) st T = (stF, some e)) := by
  refine ⟨?_, ?_, ?_, ?_⟩
  · intro av st pre c post m hpre hc
    induction pre generalizing st with
    | nil =>
      simp only [List.nil_append, runCommands, hc, List.map_nil,
        List.append_nil]
    | cons x pre' ih =>
      have hx : env.exec (expandCmd env av x) = none :=
        hpre x (List.mem_cons_self x pre')
      have hpre' : ∀ y ∈ pre', env.exec (expandCmd env av y) = none :=
        fun y hy => hpre y (List.mem_cons_of_mem x hy)
      simp only [List.cons_append, runCommands, hx, List.append_eq]
      rw [ih { st with log := st.log ++ [expandCmd env av x] } hpre']
      simp [List.append_assoc]
  · intro fuel st st2 stF T rule m hrule hb hbg hdeps hnr hrun
    unfold build
    rw [bruns, if_neg (by simp [hb]), if_neg (by simp [hbg]), hrule]
    simp only []
    rw [hdeps]
    simp only []
    rw [if_pos hnr, hrun]
  · intro fuel st stF X rest e h
    cases fuel with
    | zero =>
      rw [bruns] at h ⊢
      exact h
    | succ fuel =>
      rw [bruns] at h ⊢
      by_cases hb : st.built X
      · rw [if_pos hb] at h ⊢
        rw [bruns] at h
        simp at h
      · rw [if_neg hb] at h ⊢
        by_cases hbg : st.building X
        · rw [if_pos hbg] at h ⊢
          exact h
        · rw [if_neg hbg] at h ⊢
          cases hrule : env.rules X with
          | none =>
            rw [hrule] at h
            try simp only [] at h
            try simp only []
            by_cases hfe : fileExists env.fs X
            · rw [if_pos hfe] at h
              rw [bruns] at h
              simp at h
            · rw [if_neg hfe] at h
              rw [if_neg hfe]
              exact h
          | some rule =>
            rw [hrule] at h
            try simp only [] at h
            try simp only []
            rcases hdeps : bruns env fuel (setBuilding st X true)
              rule.dependencies with ⟨st2, r2⟩
            rw [hdeps] at h
            cases r2 with
            | some e' =>
              try simp only [] at h
              try simp only []
              exact h
            | none =>
              try simp only [] at h
              try simp only []
              rcases hcmd : cmdStep env X rule st2 with ⟨st3, r3⟩
              rw [show (if needsRebuild env.fs X rule.dependencies then
                    runCommands env
                      (createAutomaticVariables env.fs X rule.dependencies)
                      st2 rule.commands
                  else (st2, none)) = cmdStep env X rule st2 from rfl] at h ⊢
              rw [hcmd] at h ⊢
              cases r3 with
              | some e' =>
                try simp only [] at h
                try simp only []
                exact h
              | none =>
                try simp only [] at h
                try simp only []
                rw [bruns] at h
                simp at h
  · intro fuel st stF T rule e hrule hb hbg hdeps
    unfold build
    rw [bruns, if_neg (by simp [hb]), if_neg (by simp [hbg]), hrule]
    simp only []
    rw [hdeps]

/-- C2 amended, witnessed on the chain `top: [mid, sib]`, `mid: [badc]`:
the command loop stops at `badc` (no `postc`), `mid`'s build returns the
wrapped error `command failed: boom`, the sibling `sib` is never resolved,
and `top` returns the identical state and error — neither `sibcmd` nor
`topcmd` ever reaches the log. -/
theorem claim_c2_amended_witness :
    runCommands chainEnv ⟨"", "", [], []⟩ initState
        ["okc", "badc", "postc"] =
      ({ initState with log := ["okc", "badc"] },
        some (.cmdFailed "boom")) ∧
    build chainEnv 2 initState "mid" =
      ({ setBuilding initState "mid" true with log := ["badc"] },
        some (.cmdFailed "boom")) ∧
    bruns chainEnv 2 (setBuilding initState "top" true) ["mid", "sib"] =
      ({ setBuilding (setBuilding initState "top" true) "mid" true with
          log := ["badc"] }, some (.cmdFailed "boom")) ∧
    build chainEnv 3 initState "top" =
      ({ setBuilding (setBuilding initState "top" true) "mid" true with
          log := ["badc"] }, some (.cmdFailed "boom")) :=
  ⟨(claim_c2_amended chainEnv).1 ⟨"", "", [], []⟩ initState ["okc"] "badc"
      ["postc"] "boom" (by decide) (by decide),
   (claim_c2_amended chainEnv).2.1 1 initState
      (setBuilding initState "mid" true)
      { setBuilding initState "mid" true with log := ["badc"] } "mid"
      ⟨"mid", [], ["badc"]⟩ "boom" (by decide) rfl rfl rfl (by decide) rfl,
   (claim_c2_amended chainEnv).2.2.1 2 (setBuilding initState "top" true)
      { setBuilding (setBuilding initState "top" true) "mid" true with
          log := ["badc"] } "mid" ["sib"] (.cmdFailed "boom") rfl,
   (claim_c2_amended chainEnv).2.2.2 2 initState
      { setBuilding (setBuilding initState "top" true) "mid" true with
          log := ["badc"] } "top" ⟨"top", ["mid", "sib"], ["topcmd"]⟩
      (.cmdFailed "boom") (by decide) rfl rfl rfl⟩

/-! ## Cycle soundness (C4) -/

/-- Reachability always starts with an edge out of a ruled target. -/
theorem Reach_first_edge {rules : String → Option Rule} {a b : String}
    (h : Reach rules a b) :
    ∃ r d, rules a = some r ∧ d ∈ r.dependencies ∧
      (d = b ∨ Reach rules d b) := by
  induction h with
  | step a r b ha hb => exact ⟨r, b, ha, hb, Or.inl rfl⟩
  | trans hab hbc ihab ihbc =>
    obtain ⟨r, d, ha, hd, hdb⟩ := ihab
    refine ⟨r, d, ha, hd, Or.inr ?_⟩
    cases hdb with
    | inl hEq => exact hEq ▸ hbc
    | inr hR => exact Reach.trans hR hbc

/-- A target with no rule has no outgoing edges, hence no reachable cycle. -/
theorem noCyc_of_no_rule {rules : String → Option Rule} {X : String}
    (h : rules X = none) : NoCyc rules X := by
  intro c hc _
  cases hc with
  | inl hEq =>
    subst hEq
    rename_i hcc
    obtain ⟨r, d, ha, _, _⟩ := Reach_first_edge hcc
    rw [h] at ha
    cases ha
  | inr hR =>
    obtain ⟨r, d, ha, _, _⟩ := Reach_first_edge hR
    rw [h] at ha
    cases ha

/-- Soundness of the resolver with respect to cycles: a successful run of a
work list keeps the built-targets-are-acyclic invariant and certifies that
no prerequisite cycle is reachable from any list entry. -/
theorem bruns_sound (env : BuildEnv) :
    ∀ (fuel : Nat) (l : List String) (st st' : BState),
      BuiltAcyclic env st → bruns env fuel st l = (st', none) →
      BuiltAcyclic env st' ∧ ∀ X ∈ l, NoCyc env.rules X := by
  intro fuel
  induction fuel with
  | zero =>
    intro l st st' hInv h
    cases l with
    | nil => rw [bruns] at h; cases h; exact ⟨hInv, by simp⟩
    | cons a t => rw [bruns] at h; cases h
  | succ fuel ih =>
    intro l st st' hInv h
    cases l with
    | nil => rw [bruns] at h; cases h; exact ⟨hInv, by simp⟩
    | cons target rest =>
      rw [bruns] at h
      by_cases hb : st.built target
      · rw [if_pos hb] at h
        obtain ⟨hInv', hrest⟩ := ih rest st st' hInv h
        refine ⟨hInv', fun X hX => ?_⟩
        cases hX with
        | head => exact hInv target hb
        | tail _ hm => exact hrest X hm
      · rw [if_neg hb] at h
        by_cases hbg : st.building target
        · rw [if_pos hbg] at h
          cases h
        · rw [if_neg hbg] at h
          cases hrule : env.rules target with
          | none =>
            rw [hrule] at h
            by_cases hfe : fileExists env.fs target
            · rw [if_pos hfe] at h
              obtain ⟨hInv', hrest⟩ := ih rest st st' hInv h
              refine ⟨hInv', fun X hX => ?_⟩
              cases hX with
              | head => exact noCyc_of_no_rule hrule
              | tail _ hm => exact hrest X hm
            · rw [if_neg hfe] at h
              cases h
          | some rule =>
            rw [hrule] at h
            simp only [] at h
            rcases hdeps : bruns env fuel (setBuilding st target true)
              rule.dependencies with ⟨st2, r2⟩
            rw [hdeps] at h
            cases r2 with
            | some e => simp only [] at h; cases h
            | none =>
              simp only [] at h
              have hInv1 : BuiltAcyclic env (setBuilding st target true) :=
                fun X hX => hInv X hX
              obtain ⟨hInv2, hdepsNC⟩ :=
                ih rule.dependencies (setBuilding st target true) st2 hInv1 hdeps
              rcases hcmd : cmdStep env target rule st2 with ⟨st3, r3⟩
              rw [show (if needsRebuild env.fs target rule.dependencies then
                    runCommands env
                      (createAutomaticVariables env.fs target rule.dependencies)
                      st2 rule.commands
                  else (st2, none)) = cmdStep env target rule st2 from rfl,
                hcmd] at h
              cases r3 with
              | some e => simp only [] at h; cases h
              | none =>
                simp only [] at h
                have step2 := cmdStep_flags env target rule st2 st3 none hcmd
                have hInv3 : BuiltAcyclic env st3 := fun X hX =>
                  hInv2 X (by rw [← congrFun step2.1 X]; exact hX)
                have hNCtarget : NoCyc env.rules target := by
                  intro c hc hcc
                  cases hc with
                  | inl hEq =>
                    have hcc' : Reach env.rules target target := by
                      rw [hEq] at hcc
                      exact hcc
                    obtain ⟨r', d, ha, hd, hdb⟩ := Reach_first_edge hcc'
                    rw [hrule] at ha
                    obtain rfl : rule = r' := Option.some_inj.mp ha
                    cases hdb with
                    | inl hEq' =>
                      exact bruns_mem_building env fuel rule.dependencies
                        (setBuilding st target true) st2 none target
                        (by rw [setBuilding_building, if_pos rfl])
                        (by rw [setBuilding_built]; simpa using hb)
                        (hEq' ▸ hd) hdeps rfl
                    | inr hR =>
                      exact hdepsNC d hd target (Or.inr hR) hcc'
                  | inr hR =>
                    obtain ⟨r', d, ha, hd, hdb⟩ := Reach_first_edge hR
                    rw [hrule] at ha
                    obtain rfl : rule = r' := Option.some_inj.mp ha
                    cases hdb with
                    | inl hEq' => exact hdepsNC d hd c (Or.inl hEq'.symm) hcc
                    | inr hR' => exact hdepsNC d hd c (Or.inr hR') hcc
                have hInv4 : BuiltAcyclic env
                    (setBuilt (setBuilding st3 target false) target true) := by
                  intro X hX
                  rw [setBuilt_built] at hX
                  by_cases hXt : X = target
                  · exact hXt ▸ hNCtarget
                  · rw [if_neg hXt] at hX
                    exact hInv3 X hX
                obtain ⟨hInv', hrest⟩ := ih rest _ st' hInv4 h
                refine ⟨hInv', fun X hX => ?_⟩
                cases hX with
                | head => exact hNCtarget
                | tail _ hm => exact hrest X hm

/-- C4 (counterexample): `app` depends on the missing `ghost` first and on
the self-cyclic `B` second, so a prerequisite cycle is reachable from
`app`, yet `Build("app")` fails with `NoRuleForTarget ghost` — not with a
`CycleDetected` error naming any target — because the missing rule is hit
first in depth-first order. -/
theorem claim_c4_counterexample :
    CycleReachableFrom
        (fun t => if t = "app" then some ⟨"app", ["ghost", "B"], []⟩
          else if t = "B" then some ⟨"B", ["B"], []⟩ else none) "app" ∧
      (build
          { rules := fun t => if t = "app" then some ⟨"app", ["ghost", "B"], []⟩
              else if t = "B" then some ⟨"B", ["B"], []⟩ else none
            vars := fun _ => none, osEnv := fun _ => "", fs := fun _ => none
            exec := fun _ => none } 10 initState "app").2 =
        some (.noRule "ghost") ∧
      (build
          { rules := fun t => if t = "app" then some ⟨"app", ["ghost", "B"], []⟩
              else if t = "B" then some ⟨"B", ["B"], []⟩ else none
            vars := fun _ => none, osEnv := fun _ => "", fs := fun _ => none
            exec := fun _ => none } 10 initState "app").2 ≠
        some (.cycle "B") ∧
      (build
          { rules := fun t => if t = "app" then some ⟨"app", ["ghost", "B"], []⟩
              else if t = "B" then some ⟨"B", ["B"], []⟩ else none
            vars := fun _ => none, osEnv := fun _ => "", fs := fun _ => none
            exec := fun _ => none } 10 initState "app").2 ≠
        some (.cycle "app") :=
  ⟨⟨"B",
    Or.inr (Reach.step "app" ⟨"app", ["ghost", "B"], []⟩ "B" (by decide)
      (by decide)),
    Reach.step "B" ⟨"B", ["B"], []⟩ "B" (by decide) (by decide)⟩,
   by decide, by decide, by decide⟩

/-- C4 (amended): whenever a prerequisite cycle is reachable from `T`, a
fresh `Build(T)` never succeeds — though the reported error is the
`CycleDetected` one only when the cycle is the first anomaly encountered (an
earlier missing rule or failed command preempts it with its own error) — and
a `CycleDetected` error naming the target arises exactly at re-entry: a call
on a target that is on the active stack and not yet built fails immediately
with `CycleDetected` for that target, changing nothing. -/
theorem claim_c4 (env : BuildEnv) (T : String) :
    (CycleReachableFrom env.rules T →
      ∀ fuel, (build env fuel initState T).2 ≠ none) ∧
    (∀ (fuel : Nat) (st : BState), st.built T = false →
      st.building T = true →
      build env (fuel + 1) st T = (st, some (.cycle T))) := by
  constructor
  · intro hcyc fuel h
    rcases hE : build env fuel initState T with ⟨st', r⟩
    rw [hE] at h
    simp only [] at h
    subst h
    have hInit : BuiltAcyclic env initState := fun X hX => nomatch hX
    have hNC : NoCyc env.rules T :=
      (bruns_sound env fuel [T] initState st' hInit hE).2 T (by simp)
    obtain ⟨c, hc, hcc⟩ := hcyc
    exact hNC c hc hcc
  · intro fuel st hb hbg
    unfold build
    rw [bruns, if_neg (by simp [hb]), if_pos hbg]

/-- C4 witnessed on the self-loop `loop: loop`: the cycle is reachable and
the fresh build fails; re-entering a target already on the stack returns
`CycleDetected` at once. -/
theorem claim_c4_witness :
    (build
        { rules := fun t => if t = "loop" then some ⟨"loop", ["loop"], []⟩
            else none
          vars := fun _ => none, osEnv := fun _ => "", fs := fun _ => none
          exec := fun _ => none } 5 initState "loop").2 ≠ none ∧
      build
        { rules := fun t => if t = "loop" then some ⟨"loop", ["loop"], []⟩
            else none
          vars := fun _ => none, osEnv := fun _ => "", fs := fun _ => none
          exec := fun _ => none } 1 (setBuilding initState "loop" true)
        "loop" =
      (setBuilding initState "loop" true, some (.cycle "loop")) :=
  ⟨(claim_c4
      { rules := fun t => if t = "loop" then some ⟨"loop", ["loop"], []⟩
          else none
        vars := fun _ => none, osEnv := fun _ => "", fs := fun _ => none
        exec := fun _ => none } "loop").1
    ⟨"loop", Or.inl rfl,
      Reach.step "loop" ⟨"loop", ["loop"], []⟩ "loop" (by decide)
        (by decide)⟩ 5,
   (claim_c4
      { rules := fun t => if t = "loop" then some ⟨"loop", ["loop"], []⟩
          else none
        vars := fun _ => none, osEnv := fun _ => "", fs := fun _ => none
        exec := fun _ => none } "loop").2 0 (setBuilding initState "loop" true)
    (by decide) (by decide)⟩

end GoMake
